import Mathlib

/-!
Verification of the `ljp` interactive study tool (Rust, `src/main.rs`,
`src/sets/hiragana.rs`, `src/sets/katakana.rs`) via a shallow embedding.

Modelling conventions:
* Rust `u32` weights are modelled as `Nat` (the session mutates weights only
  by `+ 1` and by resetting to `1`, far below any overflow concern).
* `rand::distr::weighted::WeightedIndex<u32>` is modelled by the snapshot of
  the weight vector it was built from; drawing a sample is modelled as a
  function of a uniform draw `r < total`, returning the first index whose
  cumulative weight exceeds `r` (exactly the cumulative-weight search the
  library performs).  `WeightedIndex::new` fails iff the total weight is zero
  (which covers the empty-vector case).
* `ThreadRng` is modelled externally: the uniform draw `r` is a parameter.
* Rust `str::split(',')` and `str::trim` are modelled character by character
  (`splitComma`, `trimStr`); `char::is_whitespace` is modelled by Lean's
  `Char.isWhitespace`, which agrees on the ASCII whitespace occurring in the
  bundled CSV data.
* The embedded `assets/*.csv` contents are not part of the sources, so the
  loaders are parametrised by the list of lines of the asset file.
-/

/-- A study item: prompt (`front`) and expected answer (`back`).
Mirrors `struct StudyItem` in `src/main.rs`. -/
structure StudyItem where
  front : String
  back : String
deriving DecidableEq

/-- Session state.  Mirrors `struct StudySession` in `src/main.rs`; the
`dist` field models `Option<WeightedIndex<u32>>` by the weight snapshot the
index was built from, and the `rng` field is modelled externally. -/
structure StudySession where
  sets : List String
  items : List StudyItem
  weights : List Nat
  dist : Option (List Nat)
deriving DecidableEq

/-- Whitespace test used by trimming; models Rust `char::is_whitespace`
(identical on the ASCII whitespace present in the data files). -/
def isWsChar (c : Char) : Bool := c.isWhitespace

/-- Drop leading and trailing whitespace from a character list. -/
def trimChars (cs : List Char) : List Char :=
  ((cs.dropWhile isWsChar).reverse.dropWhile isWsChar).reverse

/-- Models Rust `str::trim`. -/
def trimStr (s : String) : String := String.mk (trimChars s.data)

/-- Split a character list at every comma; models Rust `str::split(',')`
(`"".split(',')` yields `[""]`, `",".split(',')` yields `["",""]`). -/
def splitCharList : List Char → List (List Char)
  | [] => [[]]
  | c :: rest =>
    let r := splitCharList rest
    if c = ',' then [] :: r
    else
      match r with
      | [] => [[c]]
      | h :: t => (c :: h) :: t

/-- Models Rust `line.split(',').collect::<Vec<&str>>()`. -/
def splitComma (s : String) : List String :=
  (splitCharList s.data).map String.mk

/-- Outcome of processing one line of a bundled CSV file. -/
inductive LineResult where
  | blank
  | item (it : StudyItem)
  | malformed (warning : String)
deriving DecidableEq

/-- One iteration of the parsing loop in `HiraganaStudySet::load`
(`src/sets/hiragana.rs`): blank lines are skipped, a two-column line yields
an item with `front` from column 1 and `back` from column 0, anything else
is skipped with a warning. -/
def hiraganaParseLine (line : String) : LineResult :=
  if trimStr line = "" then .blank
  else
    match splitComma line with
    | [c0, c1] => .item ⟨trimStr c1, trimStr c0⟩
    | _ => .malformed ("Warning: Skipping malformed line in hiragana.csv: " ++ line)

/-- One iteration of the parsing loop in `KatakanaStudySet::load`
(`src/sets/katakana.rs`): same shape, but `front` comes from column 0 and
`back` from column 1. -/
def katakanaParseLine (line : String) : LineResult :=
  if trimStr line = "" then .blank
  else
    match splitComma line with
    | [c0, c1] => .item ⟨trimStr c0, trimStr c1⟩
    | _ => .malformed ("Warning: Skipping malformed line in katakana.csv: " ++ line)

/-- The parsing loop over all lines of a data file: collects the items and,
separately, the diagnostic warnings, in order. -/
def processLines (parse : String → LineResult) : List String → List StudyItem × List String
  | [] => ([], [])
  | l :: ls =>
    let rest := processLines parse ls
    match parse l with
    | .blank => rest
    | .item it => (it :: rest.1, rest.2)
    | .malformed w => (rest.1, w :: rest.2)

/-- `HiraganaStudySet::load`, parametrised by the lines of `hiragana.csv`. -/
def hiraganaLoad (lines : List String) : List StudyItem :=
  (processLines hiraganaParseLine lines).1

/-- `KatakanaStudySet::load`, parametrised by the lines of `katakana.csv`. -/
def katakanaLoad (lines : List String) : List StudyItem :=
  (processLines katakanaParseLine lines).1

/-- `get_set` in `src/main.rs`, returning the canonical name and the loaded
items of a registered provider; parametrised by the two asset files. -/
def get_set (hl kl : List String) (name : String) : Option (String × List StudyItem) :=
  if name = "hiragana" then some ("hiragana", hiraganaLoad hl)
  else if name = "katakana" then some ("katakana", katakanaLoad kl)
  else none

/-- The resolution loop of `StudySession::new`: resolved canonical names and
the concatenated items, in request order; unresolvable names are skipped
(with a warning on stderr, not modelled). -/
def resolveSets (hl kl : List String) : List String → List String × List StudyItem
  | [] => ([], [])
  | n :: ns =>
    let rest := resolveSets hl kl ns
    match get_set hl kl n with
    | some (nm, its) => (nm :: rest.1, its ++ rest.2)
    | none => rest

/-- `WeightedIndex::new` on `u32` weights: fails exactly when the total
weight is zero (this covers the empty list); on success the model keeps the
weight snapshot. -/
def weightedIndexNew (ws : List Nat) : Except String (List Nat) :=
  if ws.sum = 0 then .error "invalid weights" else .ok ws

/-- `StudySession::sync_dist`: rebuild the distribution when the weight
table is non-empty, propagating a construction failure. -/
def sync_dist (s : StudySession) : Except String StudySession :=
  if s.weights.isEmpty then .ok s
  else
    match weightedIndexNew s.weights with
    | .error e => .error e
    | .ok d => .ok { s with dist := some d }

/-- `StudySession::increment`: add 1 to every weight, then resync. -/
def increment (s : StudySession) : Except String StudySession :=
  sync_dist { s with weights := s.weights.map (· + 1) }

/-- `StudySession::reset`: in bounds, set the weight back to 1 and resync;
out of bounds, do nothing and succeed. -/
def reset (s : StudySession) (index : Nat) : Except String StudySession :=
  if index < s.weights.length then sync_dist { s with weights := s.weights.set index 1 }
  else .ok s

/-- Cumulative-weight search: the index `WeightedIndex` returns for the
uniform draw `r` (first index whose cumulative weight exceeds `r`). -/
def pickIndex : List Nat → Nat → Nat
  | [], _ => 0
  | w :: ws, r => if r < w then 0 else pickIndex ws (r - w) + 1

/-- `StudySession::sample`, with the uniform draw `r` passed explicitly;
returns the drawn index with a copy of the item, and the (unchanged)
session state. -/
def sample (s : StudySession) (r : Nat) : Option (Nat × StudyItem) × StudySession :=
  match s.dist with
  | none => (none, s)
  | some d =>
    let idx := pickIndex d r
    ((s.items[idx]?).map (fun it => (idx, it)), s)

/-- `StudySession::new`: resolve the requested sets, give every item weight
1, and build the distribution only when there are items. -/
def StudySession.new (hl kl : List String) (names : List String) : Except String StudySession :=
  let rs := resolveSets hl kl names
  let weights := List.replicate rs.2.length 1
  if weights.isEmpty then .ok ⟨rs.1, rs.2, weights, none⟩
  else
    match weightedIndexNew weights with
    | .error e => .error e
    | .ok d => .ok ⟨rs.1, rs.2, weights, some d⟩

/-- The interactive commands of `src/main.rs`. -/
inductive Commands where
  | answer (s : String)
  | help
  | weights
  | quit
deriving DecidableEq

/-- `Commands::from_str`: the three backslash commands, an error for any
other backslash-prefixed input, and everything else is an answer. -/
def Commands.fromStr (s : String) : Except String Commands :=
  if s = "\\h" then .ok .help
  else if s = "\\w" then .ok .weights
  else if s = "\\q" then .ok .quit
  else if s.data.head? = some '\\' then .error "Unknown command"
  else .ok (.answer s)

/-- The weight update performed by the `Answer` arm of `run_session` for a
cycle that sampled `(idx, item)`: on a correct answer `reset` first, then
the unconditional `increment` at the bottom of the loop; on an incorrect
answer only the `increment`. -/
def answerStep (s : StudySession) (idx : Nat) (item : StudyItem) (ans : String) :
    Except String StudySession :=
  match (if ans = item.back then reset s idx else .ok s) with
  | .error e => .error e
  | .ok s1 => increment s1

/-- Result of one iteration of the `run_session` loop. -/
inductive StepResult where
  | exit (msg : String) (code : Nat)
  | cont (s : StudySession)
  | fail (e : String)
deriving DecidableEq

/-- One iteration of the `run_session` loop in `src/main.rs`, with the
uniform draw `r` and the raw input line passed explicitly.  `\h`, `\w` and
unknown commands only print and continue; `\q` exits 0; an answer runs the
weight update. -/
def runSessionStep (s : StudySession) (r : Nat) (input : String) : StepResult :=
  match (sample s r).1 with
  | none => .exit "No items available for study. Exiting session." 0
  | some (idx, item) =>
    match Commands.fromStr (trimStr input) with
    | .ok .help => .cont s
    | .ok .weights => .cont s
    | .ok .quit => .exit "Quitting..." 0
    | .ok (.answer ans) =>
      match answerStep s idx item ans with
      | .ok s1 => .cont s1
      | .error e => .fail e
    | .error _ => .cont s

/-- An abstract sampler mutation, for stating invariants over arbitrary
sequences of weight-table operations. -/
inductive Op where
  | inc
  | res (i : Nat)
deriving DecidableEq

/-- Apply one mutation. -/
def applyOp (s : StudySession) : Op → Except String StudySession
  | .inc => increment s
  | .res i => reset s i

/-- Apply a sequence of mutations, propagating failure. -/
def applyOps (s : StudySession) : List Op → Except String StudySession
  | [] => .ok s
  | op :: ops =>
    match applyOp s op with
    | .error e => .error e
    | .ok s1 => applyOps s1 ops

instance {ε α : Type} [DecidableEq ε] [DecidableEq α] : DecidableEq (Except ε α) := fun
  | .ok a, .ok b =>
    if h : a = b then isTrue (by rw [h])
    else isFalse (by intro hx; injection hx; contradiction)
  | .error e, .error f =>
    if h : e = f then isTrue (by rw [h])
    else isFalse (by intro hx; injection hx; contradiction)
  | .ok _, .error _ => isFalse (by intro hx; cases hx)
  | .error _, .ok _ => isFalse (by intro hx; cases hx)

/-- A one-item session used to instantiate theorems on concrete data. -/
def sessOne : StudySession := ⟨[], [⟨"a", "b"⟩], [1], some [1]⟩

/-- A three-item session with all weights 1, as in the spec's worked example. -/
def sessThree : StudySession :=
  ⟨[], [⟨"a", "b"⟩, ⟨"c", "d"⟩, ⟨"e", "f"⟩], [1, 1, 1], some [1, 1, 1]⟩

section Helpers

theorem mem_le_sum {l : List Nat} {a : Nat} (h : a ∈ l) : a ≤ l.sum := by
  induction l with
  | nil => cases h
  | cons b t ih =>
    rcases List.mem_cons.mp h with rfl | h2
    · simp only [List.sum_cons]
      exact Nat.le_add_right a t.sum
    · simp only [List.sum_cons]
      exact le_trans (ih h2) (Nat.le_add_left _ _)

theorem sum_pos_of_all_pos {l : List Nat} (hne : l ≠ []) (hw : ∀ w ∈ l, 1 ≤ w) :
    0 < l.sum := by
  cases l with
  | nil => exact absurd rfl hne
  | cons b t =>
    have hb : 1 ≤ b := hw b (List.mem_cons_self b t)
    simp only [List.sum_cons]
    omega

theorem map_succ_sum_pos {l : List Nat} (hne : l ≠ []) : 0 < (l.map (· + 1)).sum := by
  cases l with
  | nil => exact absurd rfl hne
  | cons b t => simp [List.sum_cons]

theorem set_one_sum_pos {l : List Nat} {i : Nat} (h : i < l.length) :
    0 < (l.set i 1).sum := by
  have hlen : i < (l.set i 1).length := by simpa using h
  have h1 : (1 : Nat) ∈ l.set i 1 := by
    simpa using List.getElem_mem hlen
  exact lt_of_lt_of_le Nat.one_pos (mem_le_sum h1)

theorem sync_dist_empty {s : StudySession} (h : s.weights = []) :
    sync_dist s = .ok s := by
  simp [sync_dist, h]

theorem sync_dist_ok {s : StudySession} (hne : s.weights ≠ []) (hp : 0 < s.weights.sum) :
    sync_dist s = .ok ⟨s.sets, s.items, s.weights, some s.weights⟩ := by
  have h1 : s.weights.isEmpty = false := by simpa [List.isEmpty_iff] using hne
  have h2 : ¬ s.weights.sum = 0 := by omega
  simp [sync_dist, weightedIndexNew, h1, h2]

theorem increment_empty {s : StudySession} (h : s.weights = []) :
    increment s = .ok s := by
  cases s with
  | mk sets items weights dist =>
    simp only at h
    subst h
    simp [increment, sync_dist]

theorem increment_ok {s : StudySession} (hne : s.weights ≠ []) :
    increment s =
      .ok ⟨s.sets, s.items, s.weights.map (· + 1), some (s.weights.map (· + 1))⟩ := by
  unfold increment
  have hne2 : (s.weights.map (· + 1)) ≠ [] := by
    simpa [List.map_eq_nil_iff] using hne
  exact sync_dist_ok (s := { s with weights := s.weights.map (· + 1) }) hne2
    (map_succ_sum_pos hne)

theorem reset_out {s : StudySession} {i : Nat} (h : ¬ i < s.weights.length) :
    reset s i = .ok s := by
  simp [reset, h]

theorem reset_in {s : StudySession} {i : Nat} (h : i < s.weights.length) :
    reset s i = .ok ⟨s.sets, s.items, s.weights.set i 1, some (s.weights.set i 1)⟩ := by
  unfold reset
  rw [if_pos h]
  have hne : (s.weights.set i 1) ≠ [] := by
    apply List.length_pos.mp
    simp only [List.length_set]
    omega
  exact sync_dist_ok (s := { s with weights := s.weights.set i 1 }) hne (set_one_sum_pos h)

theorem sample_snd (s : StudySession) (r : Nat) : (sample s r).2 = s := by
  rcases hd : s.dist with - | d <;> simp [sample, hd]

theorem applyOp_ok (s : StudySession) (op : Op) (hw : ∀ w ∈ s.weights, 1 ≤ w) :
    ∃ s1, applyOp s op = .ok s1 ∧ (∀ w ∈ s1.weights, 1 ≤ w) ∧
      s1.items = s.items ∧ s1.sets = s.sets ∧ s1.weights.length = s.weights.length := by
  cases op with
  | inc =>
    by_cases h : s.weights = []
    · exact ⟨s, increment_empty h, hw, rfl, rfl, rfl⟩
    · refine ⟨_, increment_ok h, ?_, rfl, rfl, by simp⟩
      intro w hwmem
      rcases List.mem_map.mp hwmem with ⟨v, _, rfl⟩
      omega
  | res i =>
    by_cases h : i < s.weights.length
    · refine ⟨_, reset_in h, ?_, rfl, rfl, by simp⟩
      intro w hwmem
      rcases List.mem_or_eq_of_mem_set hwmem with hm | heq
      · exact hw w hm
      · omega
    · exact ⟨s, reset_out h, hw, rfl, rfl, rfl⟩

theorem applyOps_ok (ops : List Op) : ∀ (s : StudySession), (∀ w ∈ s.weights, 1 ≤ w) →
    ∃ s1, applyOps s ops = .ok s1 ∧ (∀ w ∈ s1.weights, 1 ≤ w) ∧
      s1.items = s.items ∧ s1.sets = s.sets ∧ s1.weights.length = s.weights.length := by
  induction ops with
  | nil => exact fun s hw => ⟨s, rfl, hw, rfl, rfl, rfl⟩
  | cons op ops ih =>
    intro s hw
    obtain ⟨s1, h1, hw1, hi1, hs1, hl1⟩ := applyOp_ok s op hw
    obtain ⟨s2, h2, hw2, hi2, hs2, hl2⟩ := ih s1 hw1
    refine ⟨s2, ?_, hw2, hi2.trans hi1, hs2.trans hs1, hl2.trans hl1⟩
    simp [applyOps, h1, h2]

theorem sum_replicate_one (n : Nat) : (List.replicate n 1).sum = n := by
  induction n with
  | zero => rfl
  | succ m ih =>
    simp only [List.replicate, List.sum_cons, ih]
    omega

theorem new_empty {hl kl names : List String} (h : (resolveSets hl kl names).2 = []) :
    StudySession.new hl kl names = .ok ⟨(resolveSets hl kl names).1, [], [], none⟩ := by
  simp [StudySession.new, h]

theorem new_nonempty {hl kl names : List String} (h : (resolveSets hl kl names).2 ≠ []) :
    StudySession.new hl kl names =
      .ok ⟨(resolveSets hl kl names).1, (resolveSets hl kl names).2,
        List.replicate (resolveSets hl kl names).2.length 1,
        some (List.replicate (resolveSets hl kl names).2.length 1)⟩ := by
  have hn : (resolveSets hl kl names).2.length ≠ 0 := by
    simpa [List.length_eq_zero] using h
  have hs : (List.replicate (resolveSets hl kl names).2.length 1).sum ≠ 0 := by
    rw [sum_replicate_one]; exact hn
  simp [StudySession.new, weightedIndexNew, List.isEmpty_iff, hn, hs,
    List.replicate_eq_nil_iff]

end Helpers

/-- C2: starting from a session whose weights are all 1, any finite sequence
of `increment` and `reset` calls that succeeds leaves every weight ≥ 1. -/
theorem c2_weights_always_ge_one (s0 : StudySession) (h0 : ∀ w ∈ s0.weights, w = 1)
    (ops : List Op) (s1 : StudySession) (hrun : applyOps s0 ops = .ok s1) :
    ∀ w ∈ s1.weights, 1 ≤ w := by
  obtain ⟨s2, h2, hw2, -, -, -⟩ :=
    applyOps_ok ops s0 (fun w hw => by have := h0 w hw; omega)
  rw [h2] at hrun
  injection hrun with h
  exact h ▸ hw2

/-- Witness for C2 on a concrete run. -/
theorem c2_weights_always_ge_one_witness :
    applyOps sessOne [Op.inc] = Except.ok ⟨[], [⟨"a", "b"⟩], [2], some [2]⟩ ∧ 1 ≤ 2 :=
  ⟨by decide,
   c2_weights_always_ge_one sessOne (by decide) [Op.inc]
     ⟨[], [⟨"a", "b"⟩], [2], some [2]⟩ (by decide) 2 (by decide)⟩

/-- C4: at construction the weight table has one entry (of weight 1) per
item, and the equality of lengths is preserved by every sequence of
`increment`/`reset` calls and by `sample` (which leaves the state unchanged). -/
theorem c4_parallel_lengths (hl kl names : List String) (s0 : StudySession)
    (hnew : StudySession.new hl kl names = .ok s0)
    (ops : List Op) (s1 : StudySession) (hrun : applyOps s0 ops = .ok s1) (r : Nat) :
    s0.weights = List.replicate s0.items.length 1 ∧
    s0.weights.length = s0.items.length ∧
    s1.weights.length = s1.items.length ∧
    (sample s1 r).2 = s1 := by
  have hshape : s0.weights = List.replicate s0.items.length 1 := by
    by_cases h : (resolveSets hl kl names).2 = []
    · rw [new_empty h] at hnew
      injection hnew with h1
      subst h1
      rfl
    · rw [new_nonempty h] at hnew
      injection hnew with h1
      subst h1
      rfl
  have hlen0 : s0.weights.length = s0.items.length := by
    rw [hshape, List.length_replicate]
  have hw0 : ∀ w ∈ s0.weights, 1 ≤ w := by
    intro w hw
    rw [hshape] at hw
    have := List.eq_of_mem_replicate hw
    omega
  obtain ⟨s2, h2, -, hi2, -, hl2⟩ := applyOps_ok ops s0 hw0
  rw [h2] at hrun
  injection hrun with h
  subst h
  refine ⟨hshape, hlen0, by rw [hl2, hi2, hlen0], sample_snd _ r⟩

/-- Witness for C4 on a concrete session built from one CSV line. -/
theorem c4_parallel_lengths_witness :
    StudySession.new ["a,b"] [] ["hiragana"] =
      Except.ok ⟨["hiragana"], [⟨"b", "a"⟩], [1], some [1]⟩ ∧
    (⟨["hiragana"], [⟨"b", "a"⟩], [1], some [1]⟩ : StudySession).weights.length =
      (⟨["hiragana"], [⟨"b", "a"⟩], [1], some [1]⟩ : StudySession).items.length :=
  ⟨by decide,
   (c4_parallel_lengths ["a,b"] [] ["hiragana"]
     ⟨["hiragana"], [⟨"b", "a"⟩], [1], some [1]⟩ (by decide) []
     ⟨["hiragana"], [⟨"b", "a"⟩], [1], some [1]⟩ (by decide) 0).2.1⟩

/-- C5: `reset` with an out-of-bounds index succeeds and leaves the whole
session (in particular every weight) unchanged; with an in-bounds index it
sets that weight to 1 and rebuilds the distribution. -/
theorem c5_reset_bounds (s : StudySession) (i : Nat) :
    (s.weights.length ≤ i → reset s i = .ok s) ∧
    (i < s.weights.length →
      reset s i = .ok ⟨s.sets, s.items, s.weights.set i 1, some (s.weights.set i 1)⟩) :=
  ⟨fun h => reset_out (by omega), fun h => reset_in h⟩

/-- Witness for C5 at concrete indices on a one-item session. -/
theorem c5_reset_bounds_witness :
    sessOne.weights.length ≤ 5 ∧ reset sessOne 5 = Except.ok sessOne ∧
    reset sessOne 0 = Except.ok ⟨[], [⟨"a", "b"⟩], [1], some [1]⟩ :=
  ⟨by decide, (c5_reset_bounds sessOne 5).1 (by decide),
   (c5_reset_bounds sessOne 0).2 (by decide)⟩

/-- C9: from any successfully constructed session, every sequence of
`increment`/`reset` calls succeeds, and whenever the resulting weight table
is non-empty the weighted-index construction succeeds (its error branch is
unreachable); an empty item store yields an absent distribution, not an
error. -/
theorem c9_dist_error_unreachable (hl kl names : List String) (ops : List Op)
    (s0 : StudySession) (hnew : StudySession.new hl kl names = .ok s0) :
    (∃ s1, applyOps s0 ops = .ok s1 ∧
      (s1.weights ≠ [] → weightedIndexNew s1.weights = .ok s1.weights)) ∧
    (s0.items = [] → s0.dist = none) := by
  have hshape : s0.weights = List.replicate s0.items.length 1 ∧
      (s0.items = [] → s0.dist = none) := by
    by_cases h : (resolveSets hl kl names).2 = []
    · rw [new_empty h] at hnew
      injection hnew with h1
      subst h1
      exact ⟨rfl, fun _ => rfl⟩
    · rw [new_nonempty h] at hnew
      injection hnew with h1
      subst h1
      exact ⟨rfl, fun hx => absurd hx h⟩
  have hw0 : ∀ w ∈ s0.weights, 1 ≤ w := by
    intro w hw
    rw [hshape.1] at hw
    have := List.eq_of_mem_replicate hw
    omega
  obtain ⟨s1, h1, hw1, -, -, -⟩ := applyOps_ok ops s0 hw0
  refine ⟨⟨s1, h1, fun hne => ?_⟩, hshape.2⟩
  have hp : 0 < s1.weights.sum := sum_pos_of_all_pos hne hw1
  have : ¬ s1.weights.sum = 0 := by omega
  simp [weightedIndexNew, this]

/-- Witness for C9 on a session with no resolvable sets. -/
theorem c9_dist_error_unreachable_witness :
    StudySession.new [] [] ["nosuchset"] = Except.ok ⟨[], [], [], none⟩ ∧
    (⟨[], [], [], none⟩ : StudySession).dist = none :=
  ⟨by decide,
   (c9_dist_error_unreachable [] [] ["nosuchset"] [] ⟨[], [], [], none⟩ (by decide)).2
     rfl⟩

section SamplerLemmas

theorem pickIndex_lt (d : List Nat) : ∀ r, r < d.sum → pickIndex d r < d.length := by
  induction d with
  | nil => intro r hr; simp at hr
  | cons w ws ih =>
    intro r hr
    rw [List.sum_cons] at hr
    by_cases h : r < w
    · simp [pickIndex, h]
    · have hr2 : r - w < ws.sum := by omega
      have := ih (r - w) hr2
      simp only [pickIndex, if_neg h, List.length_cons]
      omega

theorem countP_pickIndex (d : List Nat) : ∀ i, i < d.length →
    (List.range d.sum).countP (fun r => pickIndex d r == i) = d.getD i 0 := by
  induction d with
  | nil => intro i hi; simp at hi
  | cons w ws ih =>
    intro i hi
    rw [List.sum_cons, List.range_add, List.countP_append, List.countP_map]
    cases i with
    | zero =>
      have hall : ∀ r ∈ List.range w, (pickIndex (w :: ws) r == 0) = true := by
        intro r hr
        rw [List.mem_range] at hr
        simp [pickIndex, hr]
      have h1 : (List.range w).countP (fun r => pickIndex (w :: ws) r == 0) = w := by
        rw [List.countP_eq_length.mpr hall, List.length_range]
      have h2 : (List.range ws.sum).countP
          ((fun r => pickIndex (w :: ws) r == 0) ∘ (w + ·)) = 0 := by
        apply List.countP_eq_zero.mpr
        intro r hr
        have hnlt : ¬ (w + r < w) := by omega
        simp [Function.comp, pickIndex, hnlt]
      rw [h1, h2]
      simp
    | succ j =>
      have h1 : (List.range w).countP (fun r => pickIndex (w :: ws) r == (j + 1)) = 0 := by
        apply List.countP_eq_zero.mpr
        intro r hr
        rw [List.mem_range] at hr
        simp [pickIndex, hr]
      have h2 : (List.range ws.sum).countP
          ((fun r => pickIndex (w :: ws) r == (j + 1)) ∘ (w + ·)) =
          (List.range ws.sum).countP (fun r => pickIndex ws r == j) := by
        apply List.countP_congr
        intro r hr
        have hnlt : ¬ (w + r < w) := by omega
        simp [Function.comp, pickIndex, hnlt, Nat.add_sub_cancel_left]
      rw [h1, h2, ih j (by simpa using Nat.lt_of_succ_lt_succ hi)]
      simp

end SamplerLemmas

/-- C1: in an answer cycle on sampled index `i`, a correct answer (exact,
case-sensitive equality with `back`) performs `reset i` first and then
`increment`, leaving item `i` at weight 2 and adding 1 to every other
weight; an incorrect answer performs only `increment`, adding 1 to every
weight. -/
theorem c1_answer_cycle_policy (s : StudySession) (i : Nat) (ans : String)
    (hi : i < s.items.length) (hlen : s.weights.length = s.items.length) :
    (ans = (s.items.get ⟨i, hi⟩).back →
      answerStep s i (s.items.get ⟨i, hi⟩) ans =
        .ok ⟨s.sets, s.items, (s.weights.set i 1).map (· + 1),
          some ((s.weights.set i 1).map (· + 1))⟩ ∧
      ((s.weights.set i 1).map (· + 1)).getD i 0 = 2 ∧
      (∀ j, j < s.weights.length → j ≠ i →
        ((s.weights.set i 1).map (· + 1)).getD j 0 = s.weights.getD j 0 + 1)) ∧
    (ans ≠ (s.items.get ⟨i, hi⟩).back →
      answerStep s i (s.items.get ⟨i, hi⟩) ans =
        .ok ⟨s.sets, s.items, s.weights.map (· + 1), some (s.weights.map (· + 1))⟩ ∧
      (∀ j, j < s.weights.length →
        (s.weights.map (· + 1)).getD j 0 = s.weights.getD j 0 + 1)) := by
  have hiw : i < s.weights.length := by omega
  constructor
  · intro hans
    have hne : s.weights.set i 1 ≠ [] := by
      apply List.length_pos.mp
      simp only [List.length_set]
      omega
    refine ⟨?_, ?_, ?_⟩
    · unfold answerStep
      rw [if_pos hans, reset_in hiw]
      exact increment_ok
        (s := ⟨s.sets, s.items, s.weights.set i 1, some (s.weights.set i 1)⟩) hne
    · rw [List.getD_eq_getElem?_getD, List.getElem?_map, List.getElem?_set_self hiw]
      rfl
    · intro j hj hji
      simp [List.getD_eq_getElem?_getD, List.getElem?_set_ne (Ne.symm hji),
        List.getElem?_eq_getElem hj]
  · intro hans
    have hne : s.weights ≠ [] := by
      apply List.length_pos.mp
      omega
    refine ⟨?_, ?_⟩
    · unfold answerStep
      rw [if_neg hans]
      exact increment_ok hne
    · intro j hj
      simp [List.getD_eq_getElem?_getD, List.getElem?_eq_getElem hj]

/-- Witness for C1: from weights `[1,1,1]`, answering item 0 correctly
yields `[2,2,2]`, with item 1 at its old weight plus one. -/
theorem c1_answer_cycle_policy_witness :
    answerStep sessThree 0 (sessThree.items.get ⟨0, by decide⟩) "b" =
      Except.ok ⟨[], [⟨"a", "b"⟩, ⟨"c", "d"⟩, ⟨"e", "f"⟩], [2, 2, 2], some [2, 2, 2]⟩ ∧
    ((sessThree.weights.set 0 1).map (· + 1)).getD 1 0 = sessThree.weights.getD 1 0 + 1 := by
  have h := (c1_answer_cycle_policy sessThree 0 "b" (by decide) (by decide)).1 (by decide)
  exact ⟨h.1, h.2.2 1 (by decide) (by decide)⟩

/-- C3: with a distribution built from weight snapshot `d`, the number of
uniform draws `r < sum d` that select index `i` is exactly `d[i]` (so the
probability of index `i` is `weight[i] / sum`), and every draw returns the
selected in-range index paired with a copy of the corresponding item. -/
theorem c3_sample_weighted_distribution (s : StudySession) (d : List Nat) (i : Nat)
    (hd : s.dist = some d) (hlen : d.length = s.items.length) (hi : i < d.length) :
    (List.range d.sum).countP (fun r => pickIndex d r == i) = d.getD i 0 ∧
    (∀ r, r < d.sum →
      (sample s r).1 = some (pickIndex d r, s.items.getD (pickIndex d r) ⟨"", ""⟩) ∧
      pickIndex d r < s.items.length) := by
  refine ⟨countP_pickIndex d i hi, fun r hr => ?_⟩
  have hlt : pickIndex d r < s.items.length := hlen ▸ pickIndex_lt d r hr
  refine ⟨?_, hlt⟩
  simp [sample, hd, List.getElem?_eq_getElem hlt, List.getD_eq_getElem?_getD]

/-- Witness for C3 on a one-item session: the single index is drawn with
probability 1/1 and `sample` returns it with the item. -/
theorem c3_sample_weighted_distribution_witness :
    (List.range ([1] : List Nat).sum).countP (fun r => pickIndex [1] r == 0) =
      ([1] : List Nat).getD 0 0 ∧
    (sample sessOne 0).1 = some (0, ⟨"a", "b"⟩) := by
  have h := c3_sample_weighted_distribution sessOne [1] 0 (by decide) (by decide) (by decide)
  exact ⟨h.1, (h.2 0 (by decide)).1⟩

/-- C10: on a session with a distribution (snapshot `d` aligned with the
item store), `sample` leaves the session state completely unchanged and
returns an index below the item-store length paired with `items[index]`. -/
theorem c10_sample_frame (s : StudySession) (d : List Nat) (r : Nat)
    (hd : s.dist = some d) (hlen : d.length = s.items.length) (hr : r < d.sum) :
    (sample s r).2 = s ∧ pickIndex d r < s.items.length ∧
    (sample s r).1 = some (pickIndex d r, s.items.getD (pickIndex d r) ⟨"", ""⟩) := by
  have hlt : pickIndex d r < s.items.length := hlen ▸ pickIndex_lt d r hr
  exact ⟨sample_snd s r, hlt,
    by simp [sample, hd, List.getElem?_eq_getElem hlt, List.getD_eq_getElem?_getD]⟩

/-- Witness for C10 on a concrete one-item session. -/
theorem c10_sample_frame_witness :
    (sample sessOne 0).2 = sessOne ∧ (0 : Nat) < sessOne.items.length :=
  ⟨(c10_sample_frame sessOne [1] 0 (by decide) (by decide) (by decide)).1,
   by decide⟩

section LoaderLemmas

theorem resolveSets_all_none {hl kl : List String} : ∀ {names : List String},
    (∀ n ∈ names, get_set hl kl n = none) → resolveSets hl kl names = ([], []) := by
  intro names
  induction names with
  | nil => intro _; rfl
  | cons a t ih =>
    intro h
    have ha := h a (List.mem_cons_self a t)
    have ht := ih (fun n hn => h n (List.mem_cons_of_mem a hn))
    simp [resolveSets, ha, ht]

theorem processLines_append (p : String → LineResult) (l1 l2 : List String) :
    processLines p (l1 ++ l2) =
      ((processLines p l1).1 ++ (processLines p l2).1,
       (processLines p l1).2 ++ (processLines p l2).2) := by
  induction l1 with
  | nil => simp [processLines]
  | cons a t ih =>
    simp only [List.cons_append, processLines]
    cases p a <;> simp [ih]

end LoaderLemmas

/-- C6: a session built from an empty request list, or from only
unresolvable identifiers, has an empty item store and no distribution;
`sample` returns none and the loop exits 0 with the exhaustion message.
Conversely, a successfully built session with a non-empty item store has a
distribution and `sample` does not return none. -/
theorem c6_empty_store_exhaustion (hl kl names : List String) (r : Nat) (input : String) :
    ((names = [] ∨ ∀ n ∈ names, get_set hl kl n = none) →
      StudySession.new hl kl names = .ok ⟨[], [], [], none⟩ ∧
      (sample ⟨[], [], [], none⟩ r).1 = none ∧
      runSessionStep ⟨[], [], [], none⟩ r input =
        .exit "No items available for study. Exiting session." 0) ∧
    (∀ s0, StudySession.new hl kl names = .ok s0 → s0.items ≠ [] →
      r < s0.items.length →
      s0.dist = some (List.replicate s0.items.length 1) ∧ (sample s0 r).1 ≠ none) := by
  constructor
  · intro hcase
    have hres : resolveSets hl kl names = ([], []) := by
      rcases hcase with rfl | hall
      · rfl
      · exact resolveSets_all_none hall
    have hempty : (resolveSets hl kl names).2 = [] := by rw [hres]
    have hnew := new_empty hempty
    rw [hres] at hnew
    exact ⟨hnew, rfl, rfl⟩
  · intro s0 hnew hne hr
    have hres : (resolveSets hl kl names).2 ≠ [] := by
      intro hx
      rw [new_empty hx] at hnew
      injection hnew with h
      rw [← h] at hne
      exact hne rfl
    rw [new_nonempty hres] at hnew
    injection hnew with h
    subst h
    refine ⟨rfl, ?_⟩
    have hsum : (List.replicate (resolveSets hl kl names).2.length 1).sum =
        (resolveSets hl kl names).2.length := sum_replicate_one _
    have hlt : pickIndex (List.replicate (resolveSets hl kl names).2.length 1) r <
        (resolveSets hl kl names).2.length := by
      have := pickIndex_lt (List.replicate (resolveSets hl kl names).2.length 1) r
        (by rw [hsum]; exact hr)
      simpa using this
    simp [sample, List.getElem?_eq_getElem hlt]

/-- Witness for C6: one unresolvable set name gives the empty session and
the exhaustion exit; a session with an item samples some. -/
theorem c6_empty_store_exhaustion_witness :
    StudySession.new [] [] ["nosuch"] = Except.ok ⟨[], [], [], none⟩ ∧
    runSessionStep ⟨[], [], [], none⟩ 0 "x" =
      .exit "No items available for study. Exiting session." 0 ∧
    (sample ⟨["hiragana"], [⟨"b", "a"⟩], [1], some [1]⟩ 0).1 ≠ none := by
  have h1 := (c6_empty_store_exhaustion [] [] ["nosuch"] 0 "x").1 (Or.inr (by decide))
  have h2 := (c6_empty_store_exhaustion ["a,b"] [] ["hiragana"] 0 "x").2
    ⟨["hiragana"], [⟨"b", "a"⟩], [1], some [1]⟩ (by decide) (by decide) (by decide)
  exact ⟨h1.1, h1.2.2, h2.2⟩

/-- C7: on a well-formed two-column line, the hiragana provider stores
column 1 (trimmed) as `front` and column 0 (trimmed) as `back`, while the
katakana provider stores column 0 (trimmed) as `front` and column 1
(trimmed) as `back`. -/
theorem c7_provider_column_mapping (line c0 c1 : String)
    (hsplit : splitComma line = [c0, c1]) (hnb : ¬ trimStr line = "") :
    hiraganaParseLine line = .item ⟨trimStr c1, trimStr c0⟩ ∧
    katakanaParseLine line = .item ⟨trimStr c0, trimStr c1⟩ := by
  constructor <;> simp [hiraganaParseLine, katakanaParseLine, hnb, hsplit]

/-- Witness for C7 on the line `"a, b"`. -/
theorem c7_provider_column_mapping_witness :
    splitComma "a, b" = ["a", " b"] ∧
    hiraganaParseLine "a, b" = .item ⟨trimStr " b", trimStr "a"⟩ ∧
    katakanaParseLine "a, b" = .item ⟨trimStr "a", trimStr " b"⟩ := by
  have h := c7_provider_column_mapping "a, b" "a" " b" (by decide) (by decide)
  exact ⟨by decide, h.1, h.2⟩

/-- C8: a blank line yields no item and no warning; a non-blank line that
does not split into exactly two columns yields no item but a warning, for
both providers; and such a line never aborts the load: the items of the
other lines are unaffected and the warning appears in the diagnostics. -/
theorem c8_malformed_line_handling (line : String) (ls1 ls2 : List String) :
    (trimStr line = "" →
      hiraganaParseLine line = .blank ∧ katakanaParseLine line = .blank) ∧
    (¬ trimStr line = "" → (splitComma line).length ≠ 2 →
      hiraganaParseLine line =
        .malformed ("Warning: Skipping malformed line in hiragana.csv: " ++ line) ∧
      katakanaParseLine line =
        .malformed ("Warning: Skipping malformed line in katakana.csv: " ++ line)) ∧
    ((hiraganaParseLine line = .blank ∨
        hiraganaParseLine line =
          .malformed ("Warning: Skipping malformed line in hiragana.csv: " ++ line)) →
      hiraganaLoad (ls1 ++ line :: ls2) = hiraganaLoad ls1 ++ hiraganaLoad ls2) ∧
    (¬ trimStr line = "" → (splitComma line).length ≠ 2 →
      (processLines hiraganaParseLine (ls1 ++ line :: ls2)).2 =
        (processLines hiraganaParseLine ls1).2 ++
          ("Warning: Skipping malformed line in hiragana.csv: " ++ line) ::
            (processLines hiraganaParseLine ls2).2) := by
  have hmal : ¬ trimStr line = "" → (splitComma line).length ≠ 2 →
      hiraganaParseLine line =
        .malformed ("Warning: Skipping malformed line in hiragana.csv: " ++ line) ∧
      katakanaParseLine line =
        .malformed ("Warning: Skipping malformed line in katakana.csv: " ++ line) := by
    intro hnb hlen
    cases hs : splitComma line with
    | nil => constructor <;> simp [hiraganaParseLine, katakanaParseLine, hnb, hs]
    | cons a t =>
      cases t with
      | nil => constructor <;> simp [hiraganaParseLine, katakanaParseLine, hnb, hs]
      | cons b t2 =>
        cases t2 with
        | nil =>
          exfalso
          apply hlen
          rw [hs]
          rfl
        | cons c t3 =>
          constructor <;> simp [hiraganaParseLine, katakanaParseLine, hnb, hs]
  refine ⟨?_, hmal, ?_, ?_⟩
  · intro hb
    constructor <;> simp [hiraganaParseLine, katakanaParseLine, hb]
  · intro hskip
    unfold hiraganaLoad
    rw [processLines_append]
    have : (processLines hiraganaParseLine (line :: ls2)).1 =
        (processLines hiraganaParseLine ls2).1 := by
      rcases hskip with h | h <;> simp [processLines, h]
    simp [this]
  · intro hnb hlen
    rw [processLines_append]
    have : (processLines hiraganaParseLine (line :: ls2)).2 =
        ("Warning: Skipping malformed line in hiragana.csv: " ++ line) ::
          (processLines hiraganaParseLine ls2).2 := by
      simp [processLines, (hmal hnb hlen).1]
    simp [this]

/-- Witness for C8: a three-column line is skipped with a warning and does
not disturb the surrounding well-formed lines. -/
theorem c8_malformed_line_handling_witness :
    hiraganaParseLine "a,b,c" =
      .malformed ("Warning: Skipping malformed line in hiragana.csv: " ++ "a,b,c") ∧
    hiraganaLoad ["x,y", "a,b,c", "p,q"] = hiraganaLoad ["x,y"] ++ hiraganaLoad ["p,q"] := by
  have h := c8_malformed_line_handling "a,b,c" ["x,y"] ["p,q"]
  have h1 := (h.2.1 (by decide) (by decide)).1
  exact ⟨h1, h.2.2.1 (Or.inr h1)⟩
